import Mathlib

/-!
Verification of the TBB grayscale map-pattern program
(`src/MapGrayscaleConv/MapGrayscaleConv.cpp`).

The program's core is `grayscaleConversion(Mat& input, Mat& output)`:
a `tbb::parallel_for` over `blocked_range2d<int>(0, input.rows, 0, input.cols)`
whose body iterates its sub-range row-major and, for each pixel `(i, j)`,
reads the 3-byte intensity `input.at<Vec3b>(i, j)`, computes
`(intensity[0] + intensity[1] + intensity[2]) / 3` in `int` arithmetic and
stores `static_cast<uchar>(gray_value)` into `output.at<uchar>(i, j)`.

The embedding below models:
* `Vec3b` as a triple of natural numbers (each channel a `uchar`, 0..255);
* `Mat` as a dense 2D grid: fixed `rows`/`cols` plus a cell function
  (element storage addressed by row/column);
* the `uchar` narrowing cast as `% 256`;
* `blocked_range2d` splitting as in TBB: a range is divisible while one of
  its dimensions has size above the grainsize (1 here, the default);
  splitting bisects the columns when the row extent is strictly smaller
  than the column extent, otherwise the rows, at the midpoint
  `begin + (end - begin) / 2`;
* `parallel_for` as the execution of every leaf block of the split tree,
  each block iterating its coordinates row-major; the state carries both
  matrices so that read/write effects are explicit.
-/

/-- One 3-channel 8-bit pixel (OpenCV `Vec3b`); each channel is a `uchar`
stored as a natural number in 0..255. -/
structure Vec3b where
  i0 : Nat
  i1 : Nat
  i2 : Nat
deriving DecidableEq

/-- A dense 2D matrix (OpenCV `Mat`): fixed row/column counts and the
element storage, addressed by `(row, col)`. -/
structure Mat (α : Type) where
  rows : Nat
  cols : Nat
  cell : Nat → Nat → α

/-- Writing one element of a `Mat` (the store `m.at(i, j) = v`). -/
def Mat.set (m : Mat α) (i j : Nat) (v : α) : Mat α :=
  ⟨m.rows, m.cols, fun i' j' => if i' = i ∧ j' = j then v else m.cell i' j'⟩

/-- The C++ `static_cast<uchar>` narrowing of a non-negative `int`. -/
def ucharCast (n : Nat) : Nat := n % 256

/-- The `int gray_value = (intensity[0] + intensity[1] + intensity[2]) / 3`
line: channel sum and truncating integer division, in `int` arithmetic. -/
def grayValue (p : Vec3b) : Nat := (p.i0 + p.i1 + p.i2) / 3

/-- The value actually stored to the output matrix:
`static_cast<uchar>(gray_value)`. -/
def toGray (p : Vec3b) : Nat := ucharCast (grayValue p)

/-- A rectangular sub-range `[rb, re) × [cb, ce)` of the coordinate space
(TBB `blocked_range2d` with row range `[rb, re)` and column range
`[cb, ce)`). -/
structure Rect where
  rb : Nat
  re : Nat
  cb : Nat
  ce : Nat
deriving DecidableEq

/-- Coordinate membership: `(i, j)` lies in the rectangle. -/
def Rect.contains (R : Rect) (p : Nat × Nat) : Prop :=
  R.rb ≤ p.1 ∧ p.1 < R.re ∧ R.cb ≤ p.2 ∧ p.2 < R.ce

instance (R : Rect) (p : Nat × Nat) : Decidable (R.contains p) := by
  unfold Rect.contains; infer_instance

/-- TBB `blocked_range2d::is_divisible` with the default grainsize 1:
either dimension still has more than one element. -/
def Rect.isDivisible (R : Rect) : Prop := 1 < R.re - R.rb ∨ 1 < R.ce - R.cb

instance (R : Rect) : Decidable R.isDivisible := by
  unfold Rect.isDivisible; infer_instance

/-- TBB `blocked_range2d` splitting (grainsize 1 in both dimensions):
bisect the columns when the row extent is strictly smaller than the column
extent, otherwise the rows, at `begin + (end - begin) / 2`. -/
def Rect.doSplit (R : Rect) : Rect × Rect :=
  if R.re - R.rb < R.ce - R.cb then
    (⟨R.rb, R.re, R.cb, R.cb + (R.ce - R.cb) / 2⟩,
     ⟨R.rb, R.re, R.cb + (R.ce - R.cb) / 2, R.ce⟩)
  else
    (⟨R.rb, R.rb + (R.re - R.rb) / 2, R.cb, R.ce⟩,
     ⟨R.rb + (R.re - R.rb) / 2, R.re, R.cb, R.ce⟩)

/-- The leaf blocks of the recursive `blocked_range2d` split tree: the
sub-ranges that `parallel_for` hands to the loop body. -/
def tbbSplit (R : Rect) : List Rect :=
  if h : R.isDivisible then
    tbbSplit R.doSplit.1 ++ tbbSplit R.doSplit.2
  else
    [R]
termination_by (R.re - R.rb) + (R.ce - R.cb)
decreasing_by
  · unfold Rect.doSplit Rect.isDivisible at *
    split <;> simp_all <;> omega
  · unfold Rect.doSplit Rect.isDivisible at *
    split <;> simp_all <;> omega

/-- The coordinates of one block, in the row-major order of the loop body
(`for i in rows; for j in cols`). -/
def Rect.coords (R : Rect) : List (Nat × Nat) :=
  (List.range' R.rb (R.re - R.rb)).flatMap fun i =>
    (List.range' R.cb (R.ce - R.cb)).map fun j => (i, j)

/-- The engine's state: the input matrix (read) and the output matrix
(written). -/
structure EngineState where
  input : Mat Vec3b
  output : Mat Nat

/-- One iteration of the loop body at pixel `p`: read
`input.at<Vec3b>(p)`, average, narrow to `uchar`, store to
`output.at<uchar>(p)`. -/
def stepWrite (s : EngineState) (p : Nat × Nat) : EngineState :=
  { s with output := s.output.set p.1 p.2 (toGray (s.input.cell p.1 p.2)) }

/-- Executing the loop body on one block: its coordinates row-major. -/
def runBlock (s : EngineState) (R : Rect) : EngineState :=
  R.coords.foldl stepWrite s

/-- Executing a list of blocks one after another. -/
def runBlocks (s : EngineState) (parts : List Rect) : EngineState :=
  parts.foldl runBlock s

/-- The full coordinate space `[0, rows) × [0, cols)` handed to
`parallel_for`. -/
def fullRect (rows cols : Nat) : Rect := ⟨0, rows, 0, cols⟩

/-- `grayscaleConversion` as a state transformer: `parallel_for` over
`blocked_range2d<int>(0, input.rows, 0, input.cols)`, i.e. the execution
of every leaf block of the split tree. -/
def grayscaleConversionRun (s : EngineState) : EngineState :=
  runBlocks s (tbbSplit (fullRect s.input.rows s.input.cols))

/-- `grayscaleConversion(input, output)`: the output matrix after the
call returns. -/
def grayscaleConversion (input : Mat Vec3b) (output : Mat Nat) : Mat Nat :=
  (grayscaleConversionRun ⟨input, output⟩).output

/-- Refinement reference, following the spec's words: a single-threaded
row-major iteration over the whole grid applying the same transform. -/
def seqRowMajorSpec (input : Mat Vec3b) (output : Mat Nat) : Mat Nat :=
  (((List.range input.rows).flatMap fun i =>
      (List.range input.cols).map fun j => (i, j)).foldl
    stepWrite ⟨input, output⟩).output

/-- How many of the writes in a write log hit coordinate `(r, c)`. -/
def writesAt (log : List (Nat × Nat)) (r c : Nat) : Nat :=
  log.countP fun q => decide (q.1 = r ∧ q.2 = c)

/-- The write log of the engine on a grid of `rows × cols`: every
coordinate of every dispatched block, in dispatch order. -/
def engineWriteLog (rows cols : Nat) : List (Nat × Nat) :=
  (tbbSplit (fullRect rows cols)).flatMap Rect.coords

/-- Two rectangles share no coordinate. -/
def rectDisjoint (S T : Rect) : Prop :=
  ∀ p : Nat × Nat, ¬(S.contains p ∧ T.contains p)

/-- Fuel-indexed version of `tbbSplit`, used to evaluate the split tree on
concrete ranges (it is structurally recursive, so the kernel can reduce
it); `tbbSplit_eq_fuel` proves it agrees with `tbbSplit` once the fuel
covers the range extent. -/
def tbbSplitF : Nat → Rect → List Rect
  | 0, R => [R]
  | fuel + 1, R =>
    if R.isDivisible then
      tbbSplitF fuel R.doSplit.1 ++ tbbSplitF fuel R.doSplit.2
    else
      [R]

/-- Concrete matrices for the 2×2 scenario and the witnessing runs:
grid contents given row-major as a list of rows. -/
def matOfLists (rowsL : List (List Vec3b)) (cols : Nat) : Mat Vec3b :=
  ⟨rowsL.length, cols, fun i j => ((rowsL.getD i []).getD j ⟨0, 0, 0⟩)⟩

/-- A fresh all-zeros 1-channel destination matrix. -/
def zeroMat (rows cols : Nat) : Mat Nat := ⟨rows, cols, fun _ _ => 0⟩

/-- The spec's 2×2 scenario source grid. -/
def mat2x2 : Mat Vec3b :=
  matOfLists
    [[⟨10, 20, 30⟩, ⟨40, 50, 60⟩], [⟨70, 80, 90⟩, ⟨100, 110, 120⟩]] 2

/-- A 1×1 source grid, used to exercise a dimension mismatch. -/
def mat1x1 : Mat Vec3b := matOfLists [[⟨10, 20, 30⟩]] 1

/-- A 2×2 destination prefilled with a nonzero value, to show the result
does not depend on the destination's prior contents. -/
def sevenMat : Mat Nat := ⟨2, 2, fun _ _ => 7⟩

/-! ### Helper lemmas about the engine -/

theorem input_foldl_stepWrite (L : List (Nat × Nat)) (s : EngineState) :
    (L.foldl stepWrite s).input = s.input := by
  induction L generalizing s with
  | nil => rfl
  | cons q L ih => simp only [List.foldl_cons, ih]; rfl

theorem output_rows_foldl_stepWrite (L : List (Nat × Nat)) (s : EngineState) :
    (L.foldl stepWrite s).output.rows = s.output.rows := by
  induction L generalizing s with
  | nil => rfl
  | cons q L ih => simp only [List.foldl_cons, ih]; rfl

theorem output_cols_foldl_stepWrite (L : List (Nat × Nat)) (s : EngineState) :
    (L.foldl stepWrite s).output.cols = s.output.cols := by
  induction L generalizing s with
  | nil => rfl
  | cons q L ih => simp only [List.foldl_cons, ih]; rfl

theorem cell_foldl_stepWrite (L : List (Nat × Nat)) (s : EngineState)
    (i j : Nat) :
    (L.foldl stepWrite s).output.cell i j =
      if (i, j) ∈ L then toGray (s.input.cell i j) else s.output.cell i j := by
  induction L generalizing s with
  | nil => simp
  | cons q L ih =>
    obtain ⟨a, b⟩ := q
    simp only [List.foldl_cons, ih, stepWrite, Mat.set, List.mem_cons,
      Prod.mk.injEq]
    by_cases hq : i = a ∧ j = b
    · obtain ⟨rfl, rfl⟩ := hq
      simp
    · by_cases hmem : (i, j) ∈ L
      · simp [hmem]
      · simp [hq, hmem]

theorem runBlocks_eq_foldl (s : EngineState) (parts : List Rect) :
    runBlocks s parts = (parts.flatMap Rect.coords).foldl stepWrite s := by
  induction parts generalizing s with
  | nil => rfl
  | cons R parts ih =>
    simp only [runBlocks, List.foldl_cons, List.flatMap_cons,
      List.foldl_append]
    exact ih (runBlock s R)

theorem mem_coords (R : Rect) (i j : Nat) :
    (i, j) ∈ R.coords ↔ R.contains (i, j) := by
  simp only [Rect.coords, List.mem_flatMap, List.mem_map, List.mem_range'_1,
    Rect.contains, Prod.mk.injEq]
  constructor
  · rintro ⟨a, ⟨h1, h2⟩, b, ⟨h3, h4⟩, h5, h6⟩
    omega
  · rintro ⟨h1, h2, h3, h4⟩
    exact ⟨i, ⟨h1, by omega⟩, j, ⟨h3, by omega⟩, rfl, rfl⟩

theorem cell_runBlocks (s : EngineState) (parts : List Rect) (i j : Nat) :
    (runBlocks s parts).output.cell i j =
      if ∃ S ∈ parts, S.contains (i, j) then toGray (s.input.cell i j)
      else s.output.cell i j := by
  rw [runBlocks_eq_foldl, cell_foldl_stepWrite]
  congr 1
  simp only [List.mem_flatMap, mem_coords, eq_iff_iff]

/-! ### Helper lemmas about the TBB split tree -/

theorem doSplit_partition (R : Rect) (p : Nat × Nat) :
    (R.contains p ↔ (R.doSplit.1.contains p ∨ R.doSplit.2.contains p))
    ∧ ¬(R.doSplit.1.contains p ∧ R.doSplit.2.contains p) := by
  unfold Rect.doSplit Rect.contains
  split <;> simp only <;> omega

theorem contains_of_mem_tbbSplit (R : Rect) :
    ∀ S ∈ tbbSplit R, ∀ p : Nat × Nat, S.contains p → R.contains p := by
  induction R using tbbSplit.induct with
  | case1 R hdiv ih1 ih2 =>
    intro S hS p hp
    rw [tbbSplit, dif_pos hdiv] at hS
    rcases List.mem_append.mp hS with h | h
    · exact (doSplit_partition R p).1.mpr (Or.inl (ih1 S h p hp))
    · exact (doSplit_partition R p).1.mpr (Or.inr (ih2 S h p hp))
  | case2 R hdiv =>
    intro S hS p hp
    rw [tbbSplit, dif_neg hdiv] at hS
    simp only [List.mem_singleton] at hS
    exact hS ▸ hp

theorem mem_tbbSplit_iff (R : Rect) (p : Nat × Nat) :
    (∃ S ∈ tbbSplit R, S.contains p) ↔ R.contains p := by
  induction R using tbbSplit.induct with
  | case1 R hdiv ih1 ih2 =>
    rw [tbbSplit, dif_pos hdiv]
    constructor
    · rintro ⟨S, hS, hc⟩
      rcases List.mem_append.mp hS with h | h
      · exact (doSplit_partition R p).1.mpr (Or.inl (ih1.mp ⟨S, h, hc⟩))
      · exact (doSplit_partition R p).1.mpr (Or.inr (ih2.mp ⟨S, h, hc⟩))
    · intro hc
      rcases (doSplit_partition R p).1.mp hc with h | h
      · obtain ⟨S, hS, hc'⟩ := ih1.mpr h
        exact ⟨S, List.mem_append.mpr (Or.inl hS), hc'⟩
      · obtain ⟨S, hS, hc'⟩ := ih2.mpr h
        exact ⟨S, List.mem_append.mpr (Or.inr hS), hc'⟩
  | case2 R hdiv =>
    rw [tbbSplit, dif_neg hdiv]
    simp

theorem pairwise_rectDisjoint_tbbSplit (R : Rect) :
    (tbbSplit R).Pairwise rectDisjoint := by
  induction R using tbbSplit.induct with
  | case1 R hdiv ih1 ih2 =>
    rw [tbbSplit, dif_pos hdiv]
    refine List.pairwise_append.mpr ⟨ih1, ih2, ?_⟩
    intro S hS T hT p ⟨hpS, hpT⟩
    exact (doSplit_partition R p).2
      ⟨contains_of_mem_tbbSplit _ S hS p hpS,
       contains_of_mem_tbbSplit _ T hT p hpT⟩
  | case2 R hdiv =>
    rw [tbbSplit, dif_neg hdiv]
    simp [rectDisjoint]

/-! ### Helper lemmas counting writes -/

theorem countP_row (i s n r c : Nat) :
    ((List.range' s n).map fun j => (i, j)).countP
        (fun q => decide (q.1 = r ∧ q.2 = c)) =
      if i = r ∧ s ≤ c ∧ c < s + n then 1 else 0 := by
  induction n generalizing s with
  | zero =>
    have h : ¬(i = r ∧ s ≤ c ∧ c < s) := by omega
    simp [h]
  | succ n ih =>
    rw [List.range'_succ]
    simp only [List.map_cons, List.countP_cons, ih, decide_eq_true_eq]
    split_ifs <;> omega

theorem countP_block (rb n cb m r c : Nat) :
    (((List.range' rb n).flatMap fun i =>
        (List.range' cb m).map fun j => (i, j)).countP
        (fun q => decide (q.1 = r ∧ q.2 = c))) =
      if rb ≤ r ∧ r < rb + n ∧ cb ≤ c ∧ c < cb + m then 1 else 0 := by
  induction n generalizing rb with
  | zero =>
    have h : ¬(rb ≤ r ∧ r < rb ∧ cb ≤ c ∧ c < cb + m) := by omega
    simp [h]
  | succ n ih =>
    rw [List.range'_succ]
    simp only [List.flatMap_cons, List.countP_append, countP_row, ih]
    split_ifs <;> omega

theorem writesAt_coords (R : Rect) (r c : Nat) :
    writesAt R.coords r c = if R.contains (r, c) then 1 else 0 := by
  unfold writesAt Rect.coords
  rw [countP_block]
  simp only [Rect.contains]
  split_ifs <;> omega

theorem writesAt_tbbSplit (R : Rect) (r c : Nat) :
    writesAt ((tbbSplit R).flatMap Rect.coords) r c =
      if R.contains (r, c) then 1 else 0 := by
  induction R using tbbSplit.induct with
  | case1 R hdiv ih1 ih2 =>
    rw [tbbSplit, dif_pos hdiv]
    rw [List.flatMap_append]
    unfold writesAt at *
    rw [List.countP_append, ih1, ih2]
    have hpart := doSplit_partition R (r, c)
    by_cases h1 : R.doSplit.1.contains (r, c) <;>
      by_cases h2 : R.doSplit.2.contains (r, c) <;>
        simp_all
  | case2 R hdiv =>
    rw [tbbSplit, dif_neg hdiv]
    simp only [List.flatMap_cons, List.flatMap_nil, List.append_nil]
    exact writesAt_coords R r c

theorem doSplit_measure (R : Rect) (hdiv : R.isDivisible) :
    (R.doSplit.1.re - R.doSplit.1.rb) + (R.doSplit.1.ce - R.doSplit.1.cb)
        < (R.re - R.rb) + (R.ce - R.cb)
    ∧ (R.doSplit.2.re - R.doSplit.2.rb) + (R.doSplit.2.ce - R.doSplit.2.cb)
        < (R.re - R.rb) + (R.ce - R.cb) := by
  unfold Rect.doSplit Rect.isDivisible at *
  split <;> simp only <;> omega

theorem tbbSplit_eq_fuel (R : Rect) :
    ∀ fuel, (R.re - R.rb) + (R.ce - R.cb) ≤ fuel →
      tbbSplit R = tbbSplitF fuel R := by
  induction R using tbbSplit.induct with
  | case1 R hdiv ih1 ih2 =>
    intro fuel hfuel
    cases fuel with
    | zero =>
      exfalso
      unfold Rect.isDivisible at hdiv
      omega
    | succ fuel =>
      have hm := doSplit_measure R hdiv
      rw [tbbSplit, dif_pos hdiv, tbbSplitF, if_pos hdiv,
        ih1 fuel (by omega), ih2 fuel (by omega)]
  | case2 R hdiv =>
    intro fuel hfuel
    cases fuel with
    | zero => rw [tbbSplit, dif_neg hdiv, tbbSplitF]
    | succ fuel => rw [tbbSplit, dif_neg hdiv, tbbSplitF, if_neg hdiv]

theorem grayscaleConversion_cell (input : Mat Vec3b) (output : Mat Nat)
    (i j : Nat) :
    (grayscaleConversion input output).cell i j =
      if i < input.rows ∧ j < input.cols then toGray (input.cell i j)
      else output.cell i j := by
  unfold grayscaleConversion grayscaleConversionRun
  rw [cell_runBlocks]
  have hiff : (∃ S ∈ tbbSplit (fullRect input.rows input.cols),
      S.contains (i, j)) ↔ (i < input.rows ∧ j < input.cols) := by
    rw [mem_tbbSplit_iff]
    simp [fullRect, Rect.contains]
  by_cases h : i < input.rows ∧ j < input.cols
  · rw [if_pos (hiff.mpr h), if_pos h]
  · rw [if_neg (fun hx => h (hiff.mp hx)), if_neg h]

theorem grayscaleConversion_rows (input : Mat Vec3b) (output : Mat Nat) :
    (grayscaleConversion input output).rows = output.rows := by
  unfold grayscaleConversion grayscaleConversionRun
  rw [runBlocks_eq_foldl]
  exact output_rows_foldl_stepWrite _ _

theorem grayscaleConversion_cols (input : Mat Vec3b) (output : Mat Nat) :
    (grayscaleConversion input output).cols = output.cols := by
  unfold grayscaleConversion grayscaleConversionRun
  rw [runBlocks_eq_foldl]
  exact output_cols_foldl_stepWrite _ _

theorem seqRowMajorSpec_cell (input : Mat Vec3b) (output : Mat Nat)
    (i j : Nat) :
    (seqRowMajorSpec input output).cell i j =
      if i < input.rows ∧ j < input.cols then toGray (input.cell i j)
      else output.cell i j := by
  unfold seqRowMajorSpec
  rw [cell_foldl_stepWrite]
  have hiff : ((i, j) ∈ (List.range input.rows).flatMap fun a =>
      (List.range input.cols).map fun b => (a, b)) ↔
        (i < input.rows ∧ j < input.cols) := by
    simp [List.mem_flatMap, List.mem_range]
  by_cases h : i < input.rows ∧ j < input.cols
  · rw [if_pos (hiff.mpr h), if_pos h]
  · rw [if_neg (fun hx => h (hiff.mp hx)), if_neg h]

/-- C1: the grayscale kernel returns `floor((c0 + c1 + c2) / 3)` by
truncating integer division, with no per-channel weighting, and hits the
five concrete cases of the spec. -/
theorem C1_kernel_truncating_average :
    (∀ c0 c1 c2 : Nat, c0 ≤ 255 → c1 ≤ 255 → c2 ≤ 255 →
        toGray ⟨c0, c1, c2⟩ = (c0 + c1 + c2) / 3)
    ∧ toGray ⟨0, 0, 0⟩ = 0
    ∧ toGray ⟨255, 255, 255⟩ = 255
    ∧ toGray ⟨255, 0, 0⟩ = 85
    ∧ toGray ⟨10, 20, 30⟩ = 20
    ∧ toGray ⟨1, 1, 2⟩ = 1 := by
  refine ⟨fun c0 c1 c2 h0 h1 h2 => ?_, by decide, by decide, by decide,
    by decide, by decide⟩
  have hle : (c0 + c1 + c2) / 3 ≤ 765 / 3 := Nat.div_le_div_right (by omega)
  simp only [toGray, grayValue, ucharCast]
  omega

/-- Witness for C1 at a concrete pixel. -/
theorem C1_kernel_truncating_average_witness :
    toGray ⟨100, 110, 120⟩ = (100 + 110 + 120) / 3 :=
  C1_kernel_truncating_average.1 100 110 120 (by decide) (by decide)
    (by decide)

/-- C3: the kernel is total on all 256³ inputs: the channel sum is at most
765 (so it fits into the C++ `int` intermediate, which holds values up to
at least 2^31 - 1), the quotient lies in `[0, 255]`, and the narrowing
`uchar` store changes nothing. -/
theorem C3_kernel_total_no_overflow (c0 c1 c2 : Nat)
    (h0 : c0 ≤ 255) (h1 : c1 ≤ 255) (h2 : c2 ≤ 255) :
    c0 + c1 + c2 ≤ 765
    ∧ c0 + c1 + c2 < 2 ^ 31
    ∧ grayValue ⟨c0, c1, c2⟩ ≤ 255
    ∧ toGray ⟨c0, c1, c2⟩ = grayValue ⟨c0, c1, c2⟩ := by
  have hle : (c0 + c1 + c2) / 3 ≤ 765 / 3 := Nat.div_le_div_right (by omega)
  simp only [toGray, grayValue, ucharCast] at *
  refine ⟨by omega, by omega, by omega, ?_⟩
  omega

/-- Witness for C3 at the all-white pixel. -/
theorem C3_kernel_total_no_overflow_witness :
    255 + 255 + 255 ≤ 765
    ∧ 255 + 255 + 255 < 2 ^ 31
    ∧ grayValue ⟨255, 255, 255⟩ ≤ 255
    ∧ toGray ⟨255, 255, 255⟩ = grayValue ⟨255, 255, 255⟩ :=
  C3_kernel_total_no_overflow 255 255 255 (by decide) (by decide) (by decide)

/-- C10: the kernel is invariant under every permutation of the three
channels, so RGB versus BGR storage order does not affect the result. -/
theorem C10_kernel_channel_permutation (a b c : Nat)
    (ha : a ≤ 255) (hb : b ≤ 255) (hc : c ≤ 255) :
    toGray ⟨a, b, c⟩ = toGray ⟨a, c, b⟩
    ∧ toGray ⟨a, b, c⟩ = toGray ⟨b, a, c⟩
    ∧ toGray ⟨a, b, c⟩ = toGray ⟨b, c, a⟩
    ∧ toGray ⟨a, b, c⟩ = toGray ⟨c, a, b⟩
    ∧ toGray ⟨a, b, c⟩ = toGray ⟨c, b, a⟩ := by
  simp only [toGray, grayValue, ucharCast]
  refine ⟨?_, ?_, ?_, ?_, ?_⟩ <;> ring_nf

/-- Witness for C10 at a concrete triple. -/
theorem C10_kernel_channel_permutation_witness :
    toGray ⟨7, 200, 13⟩ = toGray ⟨7, 13, 200⟩
    ∧ toGray ⟨7, 200, 13⟩ = toGray ⟨200, 7, 13⟩
    ∧ toGray ⟨7, 200, 13⟩ = toGray ⟨200, 13, 7⟩
    ∧ toGray ⟨7, 200, 13⟩ = toGray ⟨13, 7, 200⟩
    ∧ toGray ⟨7, 200, 13⟩ = toGray ⟨13, 200, 7⟩ :=
  C10_kernel_channel_permutation 7 200 13 (by decide) (by decide) (by decide)

/-- C2: for every source grid and equally-sized destination grid, the
parallel partitioned execution — both the engine's own TBB split and any
disjoint covering partition of the coordinate space, in any dispatch
order — agrees element for element with a single-threaded row-major
iteration applying the same transform. -/
theorem C2_parallel_eq_sequential (input : Mat Vec3b) (output : Mat Nat)
    (hr : output.rows = input.rows) (hc : output.cols = input.cols) :
    (∀ i j, i < input.rows → j < input.cols →
      (grayscaleConversion input output).cell i j =
        (seqRowMajorSpec input output).cell i j)
    ∧ ∀ parts : List Rect, parts.Pairwise rectDisjoint →
        (∀ p : Nat × Nat, (∃ S ∈ parts, S.contains p) ↔
          (fullRect input.rows input.cols).contains p) →
        ∀ i j, i < input.rows → j < input.cols →
          (runBlocks ⟨input, output⟩ parts).output.cell i j =
            (seqRowMajorSpec input output).cell i j := by
  constructor
  · intro i j hi hj
    rw [grayscaleConversion_cell, seqRowMajorSpec_cell]
  · intro parts hdisj hcover i j hi hj
    have hex : ∃ S ∈ parts, S.contains (i, j) := by
      rw [hcover (i, j)]
      exact ⟨Nat.zero_le i, hi, Nat.zero_le j, hj⟩
    rw [cell_runBlocks, seqRowMajorSpec_cell, if_pos hex, if_pos ⟨hi, hj⟩]

/-- Witness for C2 on the 2×2 scenario grid, with the engine's own TBB
partition as the covering block list. -/
theorem C2_parallel_eq_sequential_witness :
    (grayscaleConversion mat2x2 (zeroMat 2 2)).cell 0 1 =
      (seqRowMajorSpec mat2x2 (zeroMat 2 2)).cell 0 1
    ∧ (runBlocks ⟨mat2x2, zeroMat 2 2⟩
          (tbbSplit (fullRect 2 2))).output.cell 1 0 =
        (seqRowMajorSpec mat2x2 (zeroMat 2 2)).cell 1 0 := by
  have h := C2_parallel_eq_sequential mat2x2 (zeroMat 2 2) rfl rfl
  exact ⟨h.1 0 1 (by decide) (by decide),
    h.2 (tbbSplit (fullRect 2 2)) (pairwise_rectDisjoint_tbbSplit _)
      (fun p => mem_tbbSplit_iff _ p) 1 0 (by decide) (by decide)⟩

/-- C4: the blocks the engine dispatches for a `W×H` grid are pairwise
disjoint rectangles whose union is exactly `[0,H)×[0,W)`, and the write
log of the dispatched blocks hits every in-range coordinate exactly once
and every out-of-range coordinate zero times. -/
theorem C4_partition_disjoint_cover (W H : Nat) :
    (tbbSplit (fullRect H W)).Pairwise rectDisjoint
    ∧ (∀ p : Nat × Nat,
        (∃ S ∈ tbbSplit (fullRect H W), S.contains p) ↔
          (p.1 < H ∧ p.2 < W))
    ∧ (∀ r c : Nat, writesAt (engineWriteLog H W) r c =
        if r < H ∧ c < W then 1 else 0) := by
  refine ⟨pairwise_rectDisjoint_tbbSplit _, fun p => ?_, fun r c => ?_⟩
  · rw [mem_tbbSplit_iff]
    simp [fullRect, Rect.contains]
  · unfold engineWriteLog
    rw [writesAt_tbbSplit]
    simp [fullRect, Rect.contains]

/-- Witness for C4 on a 3×2 grid. -/
theorem C4_partition_disjoint_cover_witness :
    writesAt (engineWriteLog 3 2) 1 0 = if 1 < 3 ∧ 0 < 2 then 1 else 0 :=
  (C4_partition_disjoint_cover 2 3).2.2 1 0

/-- C5 counterexample: `grayscaleConversion` performs no dimension check.
With a 1×1 source and a 2×2 destination (mismatched in both dimensions)
the call completes and writes the transformed pixel into the destination,
so it neither raises a precondition failure nor performs zero writes. -/
theorem C5_counterexample :
    mat1x1.rows ≠ (zeroMat 2 2).rows
    ∧ mat1x1.cols ≠ (zeroMat 2 2).cols
    ∧ (grayscaleConversion mat1x1 (zeroMat 2 2)).cell 0 0 ≠
        (zeroMat 2 2).cell 0 0 := by
  refine ⟨by decide, by decide, ?_⟩
  rw [grayscaleConversion_cell]
  decide

/-- C5 amended: the code has no precondition check and no error path at
all: on any destination, matched or mismatched, the call dispatches over
the source's full coordinate space and stores the transformed value at
every source coordinate (stores outside the destination's extent are
out-of-bounds accesses in the C++). -/
theorem C5_no_dimension_check (input : Mat Vec3b) (output : Mat Nat)
    (i j : Nat) (hi : i < input.rows) (hj : j < input.cols) :
    (grayscaleConversion input output).cell i j = toGray (input.cell i j)
      := by
  rw [grayscaleConversion_cell, if_pos ⟨hi, hj⟩]

/-- Witness for the amended C5 on mismatched grids. -/
theorem C5_no_dimension_check_witness :
    (grayscaleConversion mat1x1 (zeroMat 2 2)).cell 0 0 =
      toGray (mat1x1.cell 0 0) :=
  C5_no_dimension_check mat1x1 (zeroMat 2 2) 0 0 (by decide) (by decide)

/-- C6: the engine only mutates the destination's element storage: the
source matrix is untouched, both shapes are unchanged, and destination
cells outside the dispatched coordinate space keep their old value. -/
theorem C6_frame (s : EngineState)
    (hr : s.output.rows = s.input.rows)
    (hc : s.output.cols = s.input.cols) :
    (grayscaleConversionRun s).input = s.input
    ∧ (grayscaleConversionRun s).output.rows = s.output.rows
    ∧ (grayscaleConversionRun s).output.cols = s.output.cols
    ∧ ∀ i j, ¬(i < s.input.rows ∧ j < s.input.cols) →
        (grayscaleConversionRun s).output.cell i j = s.output.cell i j := by
  unfold grayscaleConversionRun
  rw [runBlocks_eq_foldl]
  refine ⟨input_foldl_stepWrite _ _, output_rows_foldl_stepWrite _ _,
    output_cols_foldl_stepWrite _ _, ?_⟩
  intro i j h
  rw [cell_foldl_stepWrite, if_neg]
  intro hmem
  rw [List.mem_flatMap] at hmem
  obtain ⟨S, hS, hcoord⟩ := hmem
  have hfull := contains_of_mem_tbbSplit _ S hS (i, j)
    ((mem_coords S i j).mp hcoord)
  simp only [fullRect, Rect.contains] at hfull
  exact h ⟨hfull.2.1, hfull.2.2.2⟩

/-- Witness for C6 on the 1×1 grid: source unchanged and an out-of-range
destination cell unchanged. -/
theorem C6_frame_witness :
    (grayscaleConversionRun ⟨mat1x1, zeroMat 1 1⟩).input = mat1x1
    ∧ (grayscaleConversionRun ⟨mat1x1, zeroMat 1 1⟩).output.cell 5 7 =
        (zeroMat 1 1).cell 5 7 := by
  have h := C6_frame ⟨mat1x1, zeroMat 1 1⟩ rfl rfl
  exact ⟨h.1, h.2.2.2 5 7 (by decide)⟩

/-- C7: the computation is deterministic in the source: running the engine
into two fresh equally-sized destinations yields element-for-element
identical results whatever the destinations' prior contents. -/
theorem C7_deterministic_in_source (input : Mat Vec3b) (d1 d2 : Mat Nat)
    (h1r : d1.rows = input.rows) (h1c : d1.cols = input.cols)
    (h2r : d2.rows = input.rows) (h2c : d2.cols = input.cols) :
    ∀ i j, i < input.rows → j < input.cols →
      (grayscaleConversion input d1).cell i j =
        (grayscaleConversion input d2).cell i j := by
  intro i j hi hj
  rw [grayscaleConversion_cell, grayscaleConversion_cell,
    if_pos ⟨hi, hj⟩, if_pos ⟨hi, hj⟩]

/-- Witness for C7: zero-filled versus seven-filled fresh destinations. -/
theorem C7_deterministic_in_source_witness :
    (grayscaleConversion mat2x2 (zeroMat 2 2)).cell 1 1 =
      (grayscaleConversion mat2x2 sevenMat).cell 1 1 :=
  C7_deterministic_in_source mat2x2 (zeroMat 2 2) sevenMat rfl rfl rfl rfl
    1 1 (by decide) (by decide)

/-- C8: on the spec's 2×2 scenario grid the engine produces exactly the
destination `[[20,50],[80,110]]`, with the destination's 2×2 shape kept. -/
theorem C8_scenario_2x2 :
    (grayscaleConversion mat2x2 (zeroMat 2 2)).cell 0 0 = 20
    ∧ (grayscaleConversion mat2x2 (zeroMat 2 2)).cell 0 1 = 50
    ∧ (grayscaleConversion mat2x2 (zeroMat 2 2)).cell 1 0 = 80
    ∧ (grayscaleConversion mat2x2 (zeroMat 2 2)).cell 1 1 = 110
    ∧ (grayscaleConversion mat2x2 (zeroMat 2 2)).rows = 2
    ∧ (grayscaleConversion mat2x2 (zeroMat 2 2)).cols = 2 := by
  refine ⟨?_, ?_, ?_, ?_,
    grayscaleConversion_rows mat2x2 (zeroMat 2 2),
    grayscaleConversion_cols mat2x2 (zeroMat 2 2)⟩ <;>
    (rw [grayscaleConversion_cell]; decide)

/-- C9: the value the call returns already reflects every write of every
dispatched block — the externally observable content of the synchronous
join: the destination may be read immediately after the call returns. -/
theorem C9_all_writes_done_at_return (input : Mat Vec3b) (output : Mat Nat)
    (hr : output.rows = input.rows) (hc : output.cols = input.cols) :
    ∀ S ∈ tbbSplit (fullRect input.rows input.cols), ∀ i j,
      S.contains (i, j) →
        (grayscaleConversion input output).cell i j =
          toGray (input.cell i j) := by
  intro S hS i j hcont
  have hfull := contains_of_mem_tbbSplit _ S hS (i, j) hcont
  simp only [fullRect, Rect.contains] at hfull
  rw [grayscaleConversion_cell, if_pos ⟨hfull.2.1, hfull.2.2.2⟩]

/-- Witness for C9 on the 2×2 scenario grid, with the top-left block of
the engine's own split tree. -/
theorem C9_all_writes_done_at_return_witness :
    (grayscaleConversion mat2x2 (zeroMat 2 2)).cell 0 0 =
      toGray (mat2x2.cell 0 0) := by
  have hS : (⟨0, 1, 0, 1⟩ : Rect) ∈ tbbSplit (fullRect 2 2) := by
    rw [tbbSplit_eq_fuel (fullRect 2 2) 4 (by decide)]
    decide
  exact C9_all_writes_done_at_return mat2x2 (zeroMat 2 2) rfl rfl
    ⟨0, 1, 0, 1⟩ hS 0 0 (by decide)
